import Mathlib

/-!
Verification of the text-to-SQL pipeline of src/utils/texttosql.py.

Python strings are embedded as List Char; the language model call and the
database call are taken as parameters (an Option result: none models a
raised exception); every function of the pipeline is translated line by
line from the source.
-/

namespace TextToSQL

/-- The backtick character, written through its code point. -/
def bq : Char := '\u0060'

/-- ASCII whitespace as stripped by Python str.strip / str.rstrip. -/
def isSpc (c : Char) : Bool :=
  c == ' ' || c == '\t' || c == '\n' || c == '\r' || c == '\x0b' || c == '\x0c'

/-- Remove the longest all-whitespace suffix (Python str.rstrip). -/
def dropTrail : List Char → List Char
  | [] => []
  | c :: cs =>
    match dropTrail cs with
    | [] => if isSpc c then [] else [c]
    | r => c :: r

/-- Python str.strip: leading whitespace, then trailing whitespace, removed. -/
def pyStrip (l : List Char) : List Char := dropTrail (l.dropWhile isSpc)

/-- Python str.split on a newline: the list of lines. -/
def pySplit : List Char → List (List Char)
  | [] => [[]]
  | c :: cs =>
    if c = '\n' then [] :: pySplit cs
    else
      match pySplit cs with
      | [] => [[c]]
      | l :: ls => (c :: l) :: ls

/-- The left-to-right scan of re.sub removing every occurrence of the
    alternation in the source (a fence with the sql tag and a newline, a
    fence with a newline, a bare fence); unmatched characters are kept. -/
def stripFences : List Char → List Char
  | [] => []
  | a :: as =>
    if a = bq ∧ [bq, bq].isPrefixOf as then
      match as with
      | _ :: _ :: rest =>
        match rest with
        | '\n' :: r => stripFences r
        | 's' :: 'q' :: 'l' :: '\n' :: r => stripFences r
        | r => stripFences r
      | _ => a :: as
    else a :: stripFences as

/-- Whether three consecutive backticks occur anywhere in the text. -/
def hasTriple : List Char → Bool
  | a :: b :: c :: rest => (a == bq && b == bq && c == bq) || hasTriple (b :: c :: rest)
  | _ => false

/-- The line filter of _clean_sql_query: keep a stripped line when it is
    nonempty and starts with neither comment marker. -/
def keepLine (l : List Char) : Bool :=
  !l.isEmpty && !(['#'].isPrefixOf l) && !(['-', '-'].isPrefixOf l)

/-- The surviving lines of the query: each line stripped, blank and
    comment lines removed. -/
def sqlLines (query : List Char) : List (List Char) :=
  ((pySplit query).map pyStrip).filter keepLine

/-- Python " ".join. -/
def joinSp : List (List Char) → List Char
  | [] => []
  | [p] => p
  | p :: ps => p ++ ' ' :: joinSp ps

/-- Python endswith(";") - the last character is a semicolon. -/
def endsSemi (l : List Char) : Bool := l.getLast? == some ';'

/-- The three-backtick marker used by the startswith test of the source. -/
def fenceMarker : List Char := [bq, bq, bq]

/-- Steps 1-3 of _clean_sql_query: strip the raw completion, remove the
    fence markers when the text starts with one, drop blank and comment
    lines, join the survivors with single spaces. -/
def sanitizeBody (raw : List Char) : List Char :=
  let query := pyStrip raw
  let query := if fenceMarker.isPrefixOf query then stripFences query else query
  joinSp (sqlLines query)

/-- Model of _clean_sql_query: sanitizeBody, then a ';' appended when the
    result does not already end with one. -/
def cleanSql (raw : List Char) : List Char :=
  let query := sanitizeBody raw
  if endsSemi query then query else query ++ [';']

/-- Model of generate_sql_query.  The chain call is abstracted by its
    outcome: none when it raised, otherwise the raw completion text.  A
    successful call returns the cleaned completion; an exception makes the
    function return None. -/
def generateSqlQuery (modelCompletion : Option (List Char)) : Option (List Char) :=
  match modelCompletion with
  | none => none
  | some raw => some (cleanSql raw)

variable {V : Type}

/-- Python dict insertion: an existing key is overwritten in place, a new
    key is appended at the end. -/
def dictInsert (k : List Char) (v : V) : List (List Char × V) → List (List Char × V)
  | [] => [(k, v)]
  | p :: rest => if p.1 = k then (k, v) :: rest else p :: dictInsert k v rest

/-- The Python dict built from an association list, dict(zip(cols, row)). -/
def pyDict (ps : List (List Char × V)) : List (List Char × V) :=
  ps.foldl (fun d p => dictInsert p.1 p.2 d) []

/-- One result row of execute_query: dict(zip(column_names, row)). -/
def rowToDict (cols : List (List Char)) (row : List V) : List (List Char × V) :=
  pyDict (cols.zip row)

/-- Model of execute_query.  The database is a function giving, for a
    statement, none when executing it raises (connectivity failures
    included) and otherwise the reported column names with the raw rows.
    The except branch of the source turns any exception into []. -/
def executeQuery (db : List Char → Option (List (List Char) × List (List V)))
    (sql : List Char) : List (List (List Char × V)) :=
  match db sql with
  | none => []
  | some (cols, rows) => rows.map (rowToDict cols)

/-- The dictionary returned by query_from_text.  num_results is none when
    that key is absent from the dictionary: the generation-failure branch
    of the source builds its dictionary without the key. -/
structure Outcome (V : Type) where
  question : List Char
  sql_query : Option (List Char)
  results : List (List (List Char × V))
  num_results : Option Nat
  error : Option (List Char)
  deriving DecidableEq

/-- The error string of the generation-failure branch. -/
def genFailureMsg : List Char := "Failed to generate SQL query".data

/-- Model of query_from_text: generate, test Python falsiness of the
    result (None or the empty string), then execute and assemble the
    response dictionary. -/
def queryFromText (db : List Char → Option (List (List Char) × List (List V)))
    (modelCompletion : Option (List Char)) (question : List Char) : Outcome V :=
  match generateSqlQuery modelCompletion with
  | none => ⟨question, none, [], none, some genFailureMsg⟩
  | some sq =>
    if sq.isEmpty then ⟨question, none, [], none, some genFailureMsg⟩
    else ⟨question, some sq, executeQuery db sq, some (executeQuery db sq).length, none⟩

variable {C K : Type}

/-- The connection fields of TextToSQLGenerator. -/
structure GenState (C K : Type) where
  conn : Option C
  cursor : Option K

/-- The constructor body: conn and cursor both set to None. -/
def initGenState (C K : Type) : GenState C K := ⟨none, none⟩

/-- Model of close_db: each close call happens only behind a truthiness
    check of the corresponding field; a close call may itself fail. -/
def closeDb (s : GenState C K) (closeCursor : K → Except (List Char) Unit)
    (closeConn : C → Except (List Char) Unit) : Except (List Char) Unit :=
  (match s.cursor with
   | some k => closeCursor k
   | none => pure ()) >>= fun _ =>
  (match s.conn with
   | some c => closeConn c
   | none => pure ())

/-! ### Lemmas about dropTrail and pyStrip -/

theorem dropTrail_nil : dropTrail [] = [] := rfl

theorem dropTrail_cons_of_nil {cs : List Char} (c : Char) (h : dropTrail cs = []) :
    dropTrail (c :: cs) = if isSpc c then [] else [c] := by
  simp only [dropTrail, h]

theorem dropTrail_cons_of_ne {cs : List Char} (c : Char) (h : dropTrail cs ≠ []) :
    dropTrail (c :: cs) = c :: dropTrail cs := by
  simp only [dropTrail]

theorem dropTrail_getLast_not_spc :
    ∀ {l : List Char} {c : Char}, (dropTrail l).getLast? = some c → isSpc c = false := by
  intro l
  induction l with
  | nil => intro c h; simp [dropTrail_nil] at h
  | cons a as ih =>
    intro c h
    by_cases hn : dropTrail as = []
    · rw [dropTrail_cons_of_nil a hn] at h
      by_cases hs : isSpc a = true
      · rw [if_pos hs] at h
        simp at h
      · rw [if_neg hs] at h
        simp at h
        rw [← h]
        simpa using hs
    · rw [dropTrail_cons_of_ne a hn] at h
      rcases he : dropTrail as with _ | ⟨x, xs⟩
      · exact absurd he hn
      · rw [he, List.getLast?_cons_cons] at h
        rw [he] at ih
        exact ih h

theorem dropTrail_eq_self :
    ∀ {l : List Char}, (∀ c, l.getLast? = some c → isSpc c = false) → dropTrail l = l := by
  intro l
  induction l with
  | nil => intro _; rfl
  | cons a as ih =>
    intro h
    rcases as with _ | ⟨b, bs⟩
    · have ha : isSpc a = false := h a rfl
      rw [dropTrail_cons_of_nil a dropTrail_nil, ha]
      simp
    · have h2 : ∀ c, (b :: bs).getLast? = some c → isSpc c = false := by
        intro c hc
        exact h c (by rw [List.getLast?_cons_cons]; exact hc)
      have hne : dropTrail (b :: bs) ≠ [] := by
        rw [ih h2]; simp
      rw [dropTrail_cons_of_ne a hne, ih h2]

theorem dropTrail_append_spc {a : Char} (ha : isSpc a = true) :
    ∀ (l : List Char), dropTrail (l ++ [a]) = dropTrail l := by
  intro l
  induction l with
  | nil => simp [dropTrail, ha]
  | cons c cs ih =>
    by_cases hn : dropTrail cs = []
    · rw [List.cons_append, dropTrail_cons_of_nil c (by rw [ih, hn]),
        dropTrail_cons_of_nil c hn]
    · rw [List.cons_append, dropTrail_cons_of_ne c (by rw [ih]; exact hn),
        dropTrail_cons_of_ne c hn, ih]

theorem dropTrail_isPre : ∀ (l : List Char), dropTrail l <+: l := by
  intro l
  induction l with
  | nil => exact List.nil_prefix
  | cons a as ih =>
    by_cases hn : dropTrail as = []
    · rw [dropTrail_cons_of_nil a hn]
      by_cases hs : isSpc a
      · simp [hs]
      · simp [hs]
    · rw [dropTrail_cons_of_ne a hn]
      exact List.cons_prefix_cons.mpr ⟨rfl, ih⟩

theorem dropTrail_head :
    ∀ {l : List Char} {c : Char} {t : List Char}, dropTrail l = c :: t → l.head? = some c := by
  intro l c t h
  rcases l with _ | ⟨a, as⟩
  · simp [dropTrail_nil] at h
  · by_cases hn : dropTrail as = []
    · rw [dropTrail_cons_of_nil a hn] at h
      by_cases hs : isSpc a
      · simp [hs] at h
      · simp [hs] at h
        simp [h.1]
    · rw [dropTrail_cons_of_ne a hn] at h
      simp at h
      simp [h.1]

theorem pyStrip_nil : pyStrip [] = [] := rfl

theorem pyStrip_cons_spc {a : Char} (ha : isSpc a = true) (l : List Char) :
    pyStrip (a :: l) = pyStrip l := by
  simp [pyStrip, List.dropWhile_cons, ha]

theorem pyStrip_append_spc {a : Char} (ha : isSpc a = true) (l : List Char) :
    pyStrip (l ++ [a]) = pyStrip l := by
  unfold pyStrip
  rw [List.dropWhile_append]
  by_cases h : List.dropWhile isSpc l = []
  · rw [h]
    simp [List.dropWhile_cons, ha]
  · rw [if_neg (by simp [h])]
    exact dropTrail_append_spc ha _

theorem head_dropWhile_not_spc :
    ∀ {l : List Char} {c : Char}, (List.dropWhile isSpc l).head? = some c → isSpc c = false := by
  intro l
  induction l with
  | nil => intro c h; simp at h
  | cons a as ih =>
    intro c h
    rw [List.dropWhile_cons] at h
    by_cases hs : isSpc a
    · rw [if_pos hs] at h
      exact ih h
    · rw [if_neg hs] at h
      simp at h
      rw [← h]
      simpa using hs

theorem pyStrip_head_not_spc {l : List Char} {c : Char}
    (h : (pyStrip l).head? = some c) : isSpc c = false := by
  unfold pyStrip at h
  rcases he : dropTrail (List.dropWhile isSpc l) with _ | ⟨x, xs⟩
  · rw [he] at h; simp at h
  · rw [he] at h
    simp at h
    subst h
    exact head_dropWhile_not_spc (dropTrail_head he)

theorem pyStrip_getLast_not_spc {l : List Char} {c : Char}
    (h : (pyStrip l).getLast? = some c) : isSpc c = false :=
  dropTrail_getLast_not_spc h

theorem pyStrip_eq_self {l : List Char}
    (hh : ∀ c, l.head? = some c → isSpc c = false)
    (hl : ∀ c, l.getLast? = some c → isSpc c = false) : pyStrip l = l := by
  unfold pyStrip
  have hdw : List.dropWhile isSpc l = l := by
    rcases l with _ | ⟨a, as⟩
    · rfl
    · rw [List.dropWhile_cons, if_neg (by simp [hh a rfl])]
  rw [hdw]
  exact dropTrail_eq_self hl

theorem pyStrip_idem (l : List Char) : pyStrip (pyStrip l) = pyStrip l := by
  apply pyStrip_eq_self
  · intro c h; exact pyStrip_head_not_spc h
  · intro c h; exact pyStrip_getLast_not_spc h

theorem getLast?_mem_own : ∀ {l : List Char} {c : Char}, l.getLast? = some c → c ∈ l := by
  intro l
  induction l with
  | nil => intro c h; simp at h
  | cons a as ih =>
    intro c h
    rcases as with _ | ⟨b, bs⟩
    · simp at h; simp [h]
    · rw [List.getLast?_cons_cons] at h
      exact List.mem_cons_of_mem a (ih h)

theorem getLast?_of_isSuf {s l : List Char} (hs : s <:+ l) (hne : s ≠ []) :
    s.getLast? = l.getLast? := by
  obtain ⟨t, ht⟩ := hs
  rw [← ht, List.getLast?_append_of_ne_nil t hne]

theorem pyStrip_getLast_semi {l : List Char} (h : l.getLast? = some ';') :
    (pyStrip l).getLast? = some ';' := by
  unfold pyStrip
  have hdw_ne : List.dropWhile isSpc l ≠ [] := by
    intro hnil
    have := List.dropWhile_eq_nil_iff.mp hnil _ (getLast?_mem_own h)
    simp [isSpc] at this
  have hlast : (List.dropWhile isSpc l).getLast? = some ';' := by
    rw [getLast?_of_isSuf (List.dropWhile_suffix isSpc) hdw_ne]
    exact h
  rw [dropTrail_eq_self]
  · exact hlast
  · intro c hc
    rw [hlast] at hc
    simp at hc
    subst hc
    decide

theorem pyStrip_ne_nil_of_last_semi {l : List Char} (h : l.getLast? = some ';') :
    pyStrip l ≠ [] := by
  intro hnil
  have := pyStrip_getLast_semi h
  rw [hnil] at this
  simp at this

theorem pyStrip_isInf (l : List Char) : pyStrip l <:+: l :=
  List.IsInfix.trans (dropTrail_isPre _).isInfix (List.dropWhile_suffix isSpc).isInfix

theorem pyStrip_sublist (l : List Char) : List.Sublist (pyStrip l) l :=
  (pyStrip_isInf l).sublist

/-! ### Lemmas about pySplit -/

theorem pySplit_ne_nil (l : List Char) : pySplit l ≠ [] := by
  cases l with
  | nil => simp [pySplit]
  | cons c cs =>
    simp only [pySplit]
    split
    · simp
    · split <;> simp

theorem pySplit_cons_head {c : Char} (hc : ¬ c = '\n') (cs : List Char) :
    ∃ t ts, pySplit cs = t :: ts ∧ pySplit (c :: cs) = (c :: t) :: ts := by
  rcases he : pySplit cs with _ | ⟨t, ts⟩
  · exact absurd he (pySplit_ne_nil cs)
  · refine ⟨t, ts, rfl, ?_⟩
    simp only [pySplit, if_neg hc, he]

theorem pySplit_cons_nl (cs : List Char) : pySplit ('\n' :: cs) = [] :: pySplit cs := by
  simp [pySplit]

theorem pySplit_no_nl : ∀ {l : List Char}, '\n' ∉ l → pySplit l = [l] := by
  intro l
  induction l with
  | nil => intro _; rfl
  | cons c cs ih =>
    intro h
    have hc : ¬ c = '\n' := by
      intro hh
      exact h (by simp [hh])
    have hcs : '\n' ∉ cs := fun hm => h (List.mem_cons_of_mem _ hm)
    obtain ⟨t, ts, h1, h2⟩ := pySplit_cons_head hc cs
    rw [ih hcs] at h1
    have ht : t = cs := by
      have := congrArg (fun x => x.head?) h1
      simpa using this.symm
    have hts : ts = [] := by
      have := congrArg (fun x => x.tail) h1
      simpa using this.symm
    rw [h2, ht, hts]

theorem pySplit_append_nl : ∀ (l : List Char), pySplit (l ++ ['\n']) = pySplit l ++ [[]] := by
  intro l
  induction l with
  | nil => rfl
  | cons c cs ih =>
    by_cases h : c = '\n'
    · subst h
      rw [List.cons_append, pySplit_cons_nl, pySplit_cons_nl, ih]
      rfl
    · obtain ⟨t, ts, h1, h2⟩ := pySplit_cons_head h (cs ++ ['\n'])
      obtain ⟨t2, ts2, h3, h4⟩ := pySplit_cons_head h cs
      rw [List.cons_append, h2, h4]
      rw [ih, h3] at h1
      have ht : t2 = t := by
        have := congrArg (fun x => x.head?) h1
        simpa using this
      have hts : ts2 ++ [[]] = ts := by
        have := congrArg (fun x => x.tail) h1
        simpa using this
      rw [← ht, ← hts]
      rfl

/-- Append one character to the last line of a nonempty list of lines. -/
def appendToLast (a : Char) : List (List Char) → List (List Char)
  | [] => [[a]]
  | [m] => [m ++ [a]]
  | m :: ms => m :: appendToLast a ms

theorem appendToLast_cons_of_ne {ms : List (List Char)} (a : Char) (m : List Char)
    (h : ms ≠ []) : appendToLast a (m :: ms) = m :: appendToLast a ms := by
  rcases ms with _ | ⟨n, ns⟩
  · exact absurd rfl h
  · simp only [appendToLast]

theorem pySplit_append_ch {a : Char} (ha : ¬ a = '\n') :
    ∀ (l : List Char), pySplit (l ++ [a]) = appendToLast a (pySplit l) := by
  intro l
  induction l with
  | nil => simp [pySplit, if_neg ha, appendToLast]
  | cons c cs ih =>
    by_cases h : c = '\n'
    · subst h
      rw [List.cons_append, pySplit_cons_nl, pySplit_cons_nl, ih,
        appendToLast_cons_of_ne a [] (pySplit_ne_nil cs)]
    · obtain ⟨t2, ts2, h3, h4⟩ := pySplit_cons_head h cs
      rcases hts2 : ts2 with _ | ⟨u, us⟩
      · have hL : pySplit (cs ++ [a]) = [t2 ++ [a]] := by
          rw [ih, h3, hts2]
          simp [appendToLast]
        obtain ⟨t, ts, h1, h2⟩ := pySplit_cons_head h (cs ++ [a])
        rw [hL] at h1
        have ht : t = t2 ++ [a] := by
          have := congrArg (fun x => x.head?) h1
          simpa using this.symm
        have hts : ts = [] := by
          have := congrArg (fun x => x.tail) h1
          simpa using this.symm
        rw [List.cons_append, h2, ht, hts, h4, hts2]
        simp [appendToLast]
      · have hL : pySplit (cs ++ [a]) = t2 :: appendToLast a ts2 := by
          rw [ih, h3, appendToLast_cons_of_ne a t2 (by rw [hts2]; simp)]
        obtain ⟨t, ts, h1, h2⟩ := pySplit_cons_head h (cs ++ [a])
        rw [hL] at h1
        have ht : t = t2 := by
          have := congrArg (fun x => x.head?) h1
          simpa using this.symm
        have hts : ts = appendToLast a ts2 := by
          have := congrArg (fun x => x.tail) h1
          simpa using this.symm
        rw [List.cons_append, h2, ht, hts, h4,
          appendToLast_cons_of_ne a (c :: t2) (by rw [hts2]; simp), hts2]

/-! ### Lemmas about stripFences and hasTriple -/

theorem stripFences_nil : stripFences [] = [] := rfl

theorem stripFences_cons_nf {a : Char} {as : List Char}
    (h : ¬ (a = bq ∧ [bq, bq].isPrefixOf as = true)) :
    stripFences (a :: as) = a :: stripFences as := by
  rw [stripFences.eq_def]
  simp only [if_neg h]

theorem stripFences_cons_ne {a : Char} (h : ¬ a = bq) (as : List Char) :
    stripFences (a :: as) = a :: stripFences as :=
  stripFences_cons_nf (fun hc => h hc.1)

theorem stripFences_fence_nl (r : List Char) :
    stripFences (bq :: bq :: bq :: '\n' :: r) = stripFences r := rfl

theorem stripFences_fence_sql (r : List Char) :
    stripFences (bq :: bq :: bq :: 's' :: 'q' :: 'l' :: '\n' :: r) = stripFences r := rfl

theorem stripFences_fence_other {rest : List Char}
    (h1 : rest.head? ≠ some '\n')
    (h2 : ∀ r, rest ≠ 's' :: 'q' :: 'l' :: '\n' :: r) :
    stripFences (bq :: bq :: bq :: rest) = stripFences rest := by
  rw [stripFences.eq_def]
  simp only [List.isPrefixOf, Bool.and_true, if_pos (And.intro rfl rfl)]
  rw [if_pos (⟨trivial, by simp⟩ : True ∧ ((bq == bq && bq == bq) = true))]
  split
  · simp at h1
  · next x => exact absurd rfl (h2 x)
  · rfl

theorem stripFences_fence_cases (rest : List Char) :
    (∃ r, rest = '\n' :: r ∧ stripFences (bq :: bq :: bq :: rest) = stripFences r) ∨
    (∃ r, rest = 's' :: 'q' :: 'l' :: '\n' :: r ∧
      stripFences (bq :: bq :: bq :: rest) = stripFences r) ∨
    stripFences (bq :: bq :: bq :: rest) = stripFences rest := by
  by_cases hnl : ∃ r, rest = '\n' :: r
  · obtain ⟨r, hr⟩ := hnl
    exact Or.inl ⟨r, hr, by rw [hr]; exact stripFences_fence_nl r⟩
  · by_cases hsql : ∃ r, rest = 's' :: 'q' :: 'l' :: '\n' :: r
    · obtain ⟨r, hr⟩ := hsql
      exact Or.inr (Or.inl ⟨r, hr, by rw [hr]; exact stripFences_fence_sql r⟩)
    · refine Or.inr (Or.inr (stripFences_fence_other ?_ ?_))
      · intro hh
        rcases rest with _ | ⟨d, ds⟩
        · simp at hh
        · simp at hh
          exact hnl ⟨ds, by rw [hh]⟩
      · intro r hr
        exact hsql ⟨r, hr⟩

theorem isPre_pair {x y : Char} {as : List Char} (hp : [x, y].isPrefixOf as = true) :
    ∃ rest, as = x :: y :: rest := by
  obtain ⟨t, ht⟩ := List.isPrefixOf_iff_prefix.mp hp
  exact ⟨t, ht.symm⟩

theorem hasTriple_nil : hasTriple [] = false := rfl

theorem hasTriple_one (a : Char) : hasTriple [a] = false := rfl

theorem hasTriple_two (a b : Char) : hasTriple [a, b] = false := rfl

theorem hasTriple_cons3 (a b c : Char) (r : List Char) :
    hasTriple (a :: b :: c :: r) =
      ((a == bq && b == bq && c == bq) || hasTriple (b :: c :: r)) := rfl

theorem hasTriple_triple (r : List Char) : hasTriple (bq :: bq :: bq :: r) = true := by
  rw [hasTriple_cons3]
  simp

theorem hasTriple_tail {a : Char} {as : List Char} (h : hasTriple (a :: as) = false) :
    hasTriple as = false := by
  rcases as with _ | ⟨b, bs⟩
  · rfl
  · rcases bs with _ | ⟨c, cs⟩
    · rfl
    · rw [hasTriple_cons3] at h
      exact (Bool.or_eq_false_iff.mp h).2

theorem hasTriple_cons_of {as : List Char} (h : hasTriple as = true) (a : Char) :
    hasTriple (a :: as) = true := by
  rcases as with _ | ⟨b, bs⟩
  · simp [hasTriple_nil] at h
  · rcases bs with _ | ⟨c, cs⟩
    · simp [hasTriple_one] at h
    · rw [hasTriple_cons3]
      simp [h]

theorem hasTriple_append_left_aux :
    ∀ (n : Nat) (l : List Char), l.length ≤ n → hasTriple l = true →
      ∀ (v : List Char), hasTriple (l ++ v) = true := by
  intro n
  induction n with
  | zero =>
    intro l hl h v
    rcases l with _ | _
    · simp [hasTriple_nil] at h
    · simp at hl
  | succ n ih =>
    intro l hl h v
    rcases l with _ | ⟨a, as⟩
    · simp [hasTriple_nil] at h
    · rcases as with _ | ⟨b, bs⟩
      · simp [hasTriple_one] at h
      · rcases bs with _ | ⟨c, cs⟩
        · simp [hasTriple_two] at h
        · rw [hasTriple_cons3] at h
          rcases Bool.or_eq_true_iff.mp h with h1 | h2
          · show hasTriple (a :: b :: c :: (cs ++ v)) = true
            rw [hasTriple_cons3, h1]
            simp
          · have := ih (b :: c :: cs) (by simp at hl ⊢; omega) h2 v
            exact hasTriple_cons_of this a

theorem hasTriple_append_left {l : List Char} (h : hasTriple l = true) (v : List Char) :
    hasTriple (l ++ v) = true :=
  hasTriple_append_left_aux l.length l le_rfl h v

theorem hasTriple_append_right {l : List Char} (h : hasTriple l = true) :
    ∀ (u : List Char), hasTriple (u ++ l) = true := by
  intro u
  induction u with
  | nil => simpa using h
  | cons a u ih => exact hasTriple_cons_of ih a

theorem hasTriple_of_isInf {s l : List Char} (hinf : s <:+: l) (h : hasTriple s = true) :
    hasTriple l = true := by
  obtain ⟨u, v, huv⟩ := hinf
  rw [← huv, List.append_assoc]
  exact hasTriple_append_right (hasTriple_append_left h v) u

theorem hasTriple_of_fencePre {s : List Char} (h : fenceMarker.isPrefixOf s = true) :
    hasTriple s = true := by
  obtain ⟨t, ht⟩ := List.isPrefixOf_iff_prefix.mp h
  rw [← ht]
  exact hasTriple_triple t

theorem noTwo_stripFences {l : List Char} (h : ¬ [bq, bq].isPrefixOf l = true) :
    ¬ [bq, bq].isPrefixOf (stripFences l) = true := by
  rcases l with _ | ⟨x, xs⟩
  · simp [stripFences_nil, List.isPrefixOf]
  · by_cases hx : x = bq
    · rcases xs with _ | ⟨y, ys⟩
      · rw [stripFences_cons_nf (by simp [List.isPrefixOf])]
        simp [stripFences_nil, List.isPrefixOf]
      · by_cases hy : y = bq
        · exact absurd (by simp [List.isPrefixOf, hx, hy]) h
        · rw [stripFences_cons_nf (by
            intro hc
            obtain ⟨rest, hrest⟩ := isPre_pair hc.2
            simp at hrest
            exact hy hrest.1),
            stripFences_cons_ne hy]
          intro hc
          obtain ⟨rest, hrest⟩ := isPre_pair hc
          simp at hrest
          exact hy hrest.2.1
    · rw [stripFences_cons_ne hx]
      intro hc
      obtain ⟨rest, hrest⟩ := isPre_pair hc
      simp at hrest
      exact hx hrest.1

theorem stripFences_cond_shape {a : Char} {as : List Char}
    (hc : a = bq ∧ [bq, bq].isPrefixOf as = true) :
    a = bq ∧ ∃ rest, as = bq :: bq :: rest :=
  ⟨hc.1, isPre_pair hc.2⟩

theorem stripFences_noTriple_aux :
    ∀ (n : Nat) (l : List Char), l.length ≤ n → hasTriple (stripFences l) = false := by
  intro n
  induction n with
  | zero =>
    intro l hl
    rcases l with _ | _
    · simp [stripFences_nil, hasTriple_nil]
    · simp at hl
  | succ n ih =>
    intro l hl
    rcases l with _ | ⟨a, as⟩
    · simp [stripFences_nil, hasTriple_nil]
    · by_cases hc : a = bq ∧ [bq, bq].isPrefixOf as = true
      · obtain ⟨ha, rest, hrest⟩ := stripFences_cond_shape hc
        subst ha
        subst hrest
        rcases stripFences_fence_cases rest with ⟨r, hr, he⟩ | ⟨r, hr, he⟩ | he
        · rw [he]
          apply ih
          rw [hr] at hl
          simp at hl ⊢
          omega
        · rw [he]
          apply ih
          rw [hr] at hl
          simp at hl ⊢
          omega
        · rw [he]
          apply ih
          simp at hl ⊢
          omega
      · rw [stripFences_cons_nf hc]
        have hS : hasTriple (stripFences as) = false := by
          apply ih
          simp at hl
          omega
        rcases hSF : stripFences as with _ | ⟨p, ps⟩
        · simp [hasTriple_one]
        · rcases ps with _ | ⟨q, qs⟩
          · simp [hasTriple_two]
          · rw [hasTriple_cons3]
            rw [hSF] at hS
            rw [hS]
            simp only [Bool.or_false]
            by_cases hab : a = bq
            · have hnp : ¬ [bq, bq].isPrefixOf (stripFences as) = true :=
                noTwo_stripFences (fun hpre => hc ⟨hab, hpre⟩)
              rw [hSF] at hnp
              have hnpq : ¬ (p = bq ∧ q = bq) := by
                rintro ⟨hp, hq⟩
                exact hnp (by simp [List.isPrefixOf, hp, hq])
              rcases not_and_or.mp hnpq with hp | hq
              · simp [hp]
              · simp [hq]
            · simp [hab]

theorem stripFences_noTriple (l : List Char) : hasTriple (stripFences l) = false :=
  stripFences_noTriple_aux l.length l le_rfl

theorem stripFences_sublist_aux :
    ∀ (n : Nat) (l : List Char), l.length ≤ n → List.Sublist (stripFences l) l := by
  intro n
  induction n with
  | zero =>
    intro l hl
    rcases l with _ | _
    · simp [stripFences_nil]
    · simp at hl
  | succ n ih =>
    intro l hl
    rcases l with _ | ⟨a, as⟩
    · simp [stripFences_nil]
    · by_cases hc : a = bq ∧ [bq, bq].isPrefixOf as = true
      · obtain ⟨ha, rest, hrest⟩ := stripFences_cond_shape hc
        subst ha
        subst hrest
        rcases stripFences_fence_cases rest with ⟨r, hr, he⟩ | ⟨r, hr, he⟩ | he
        · rw [he, hr]
          have hs := ih r (by rw [hr] at hl; simp at hl ⊢; omega)
          exact (((hs.cons '\n').cons bq).cons bq).cons bq
        · rw [he, hr]
          have hs := ih r (by rw [hr] at hl; simp at hl ⊢; omega)
          exact ((((((hs.cons '\n').cons 'l').cons 'q').cons 's').cons bq).cons bq).cons bq
        · rw [he]
          have hs := ih rest (by simp at hl ⊢; omega)
          exact ((hs.cons bq).cons bq).cons bq
      · rw [stripFences_cons_nf hc]
        exact List.Sublist.cons₂ a (ih as (by simp at hl; omega))

theorem stripFences_sublist (l : List Char) : List.Sublist (stripFences l) l :=
  stripFences_sublist_aux l.length l le_rfl

theorem stripFences_getLast_semi_aux :
    ∀ (n : Nat) (l : List Char), l.length ≤ n → l.getLast? = some ';' →
      (stripFences l).getLast? = some ';' := by
  intro n
  induction n with
  | zero =>
    intro l hl h
    rcases l with _ | _
    · simp at h
    · simp at hl
  | succ n ih =>
    intro l hl h
    rcases l with _ | ⟨a, as⟩
    · simp at h
    · by_cases hc : a = bq ∧ [bq, bq].isPrefixOf as = true
      · obtain ⟨ha, rest, hrest⟩ := stripFences_cond_shape hc
        subst ha
        subst hrest
        rcases rest with _ | ⟨d, ds⟩
        · rw [show (([bq, bq, bq] : List Char)).getLast? = some bq from rfl] at h
          simp at h
          exact absurd h (by decide)
        · have hrl : (d :: ds).getLast? = some ';' := by
            rw [List.getLast?_cons_cons, List.getLast?_cons_cons,
              List.getLast?_cons_cons] at h
            exact h
          rcases stripFences_fence_cases (d :: ds) with ⟨r, hr, he⟩ | ⟨r, hr, he⟩ | he
          · rw [he]
            rcases r with _ | ⟨e, es⟩
            · rw [hr] at hrl
              rw [show ((['\n'] : List Char)).getLast? = some '\n' from rfl] at hrl
              simp at hrl
            · refine ih (e :: es) ?_ ?_
              · rw [hr] at hl
                simp at hl ⊢
                omega
              · rw [hr, List.getLast?_cons_cons] at hrl
                exact hrl
          · rw [he]
            rcases r with _ | ⟨e, es⟩
            · rw [hr] at hrl
              rw [show ((['s', 'q', 'l', '\n'] : List Char)).getLast? = some '\n' from
                rfl] at hrl
              simp at hrl
            · refine ih (e :: es) ?_ ?_
              · rw [hr] at hl
                simp at hl ⊢
                omega
              · rw [hr] at hrl
                simp only [List.getLast?_cons_cons] at hrl
                exact hrl
          · rw [he]
            exact ih (d :: ds) (by simp at hl ⊢; omega) hrl
      · rw [stripFences_cons_nf hc]
        rcases as with _ | ⟨b, bs⟩
        · simp at h
          rw [stripFences_nil]
          simp [h]
        · rw [List.getLast?_cons_cons] at h
          have hS := ih (b :: bs) (by simp at hl ⊢; omega) h
          rcases hSF : stripFences (b :: bs) with _ | ⟨p, ps⟩
          · rw [hSF] at hS
            simp at hS
          · rw [hSF] at hS
            rw [List.getLast?_cons_cons]
            exact hS

theorem stripFences_getLast_semi {l : List Char} (h : l.getLast? = some ';') :
    (stripFences l).getLast? = some ';' :=
  stripFences_getLast_semi_aux l.length l le_rfl h

/-! ### Lemmas about keepLine, sqlLines and joinSp -/

theorem keepLine_iff {l : List Char} :
    keepLine l = true ↔
      l ≠ [] ∧ ¬ ['#'].isPrefixOf l = true ∧ ¬ ['-', '-'].isPrefixOf l = true := by
  unfold keepLine
  cases h0 : l.isEmpty <;> cases h1 : ['#'].isPrefixOf l <;>
    cases h2 : ['-', '-'].isPrefixOf l <;> simp_all [List.isEmpty_iff]

theorem sqlLines_mem {q p : List Char} (hp : p ∈ sqlLines q) :
    (∃ x, p = pyStrip x) ∧ keepLine p = true := by
  unfold sqlLines at hp
  rw [List.mem_filter] at hp
  obtain ⟨hmem, hkeep⟩ := hp
  rw [List.mem_map] at hmem
  obtain ⟨x, _, hx⟩ := hmem
  exact ⟨⟨x, hx.symm⟩, hkeep⟩

theorem isPre_single {c : Char} {l : List Char} :
    [c].isPrefixOf l = true ↔ l.head? = some c := by
  rcases l with _ | ⟨a, as⟩
  · simp [List.isPrefixOf]
  · simp [List.isPrefixOf]
    exact eq_comm

theorem joinSp_nil : joinSp [] = [] := rfl

theorem joinSp_single (p : List Char) : joinSp [p] = p := rfl

theorem joinSp_cons {ps : List (List Char)} (p : List Char) (h : ps ≠ []) :
    joinSp (p :: ps) = p ++ ' ' :: joinSp ps := by
  rcases ps with _ | ⟨q, qs⟩
  · exact absurd rfl h
  · simp only [joinSp]

theorem joinSp_decomp (p : List Char) (ps : List (List Char)) :
    ∃ X, joinSp (p :: ps) = p ++ X ∧ (X = [] ∨ X.head? = some ' ') := by
  rcases ps with _ | ⟨q, qs⟩
  · exact ⟨[], by simp [joinSp_single], Or.inl rfl⟩
  · exact ⟨' ' :: joinSp (q :: qs), joinSp_cons p (by simp), Or.inr rfl⟩

/-! ### Structural facts about cleanSql -/

theorem cleanSql_eq (raw : List Char) :
    cleanSql raw =
      if endsSemi (sanitizeBody raw) then sanitizeBody raw
      else sanitizeBody raw ++ [';'] := rfl

theorem sanitizeBody_eq (raw : List Char) :
    sanitizeBody raw =
      joinSp (sqlLines
        (if fenceMarker.isPrefixOf (pyStrip raw) then stripFences (pyStrip raw)
         else pyStrip raw)) := rfl

theorem cleanSql_endsSemi (raw : List Char) : endsSemi (cleanSql raw) = true := by
  rw [cleanSql_eq]
  by_cases h : endsSemi (sanitizeBody raw) = true
  · rw [if_pos h]
    exact h
  · rw [if_neg (by simpa using h)]
    unfold endsSemi
    rw [List.getLast?_concat]
    simp

theorem cleanSql_ne_nil (raw : List Char) : cleanSql raw ≠ [] := by
  intro hnil
  have := cleanSql_endsSemi raw
  rw [hnil] at this
  simp [endsSemi] at this

theorem cleanSql_getLast_semi (raw : List Char) : (cleanSql raw).getLast? = some ';' := by
  have := cleanSql_endsSemi raw
  unfold endsSemi at this
  simpa using this

/-- Either the sanitized statement is the bare semicolon, or it decomposes
    as a surviving line followed by a continuation that starts with a space
    or the appended semicolon. -/
theorem cleanSql_decomp (raw : List Char) :
    cleanSql raw = [';'] ∨
    ∃ p X, cleanSql raw = p ++ X ∧ keepLine p = true ∧ (∃ x, p = pyStrip x) ∧
      (X.head? = none ∨ X.head? = some ' ' ∨ X.head? = some ';') := by
  rw [cleanSql_eq]
  rcases hq : sqlLines
      (if fenceMarker.isPrefixOf (pyStrip raw) then stripFences (pyStrip raw)
       else pyStrip raw) with _ | ⟨p, ps⟩
  · left
    rw [sanitizeBody_eq, hq, joinSp_nil]
    rfl
  · right
    have hpmem := sqlLines_mem (q :=
      (if fenceMarker.isPrefixOf (pyStrip raw) then stripFences (pyStrip raw)
       else pyStrip raw)) (p := p) (by rw [hq]; simp)
    have hpne : p ≠ [] := (keepLine_iff.mp hpmem.2).1
    obtain ⟨X, hX, hXh⟩ := joinSp_decomp p ps
    have hbody : sanitizeBody raw = p ++ X := by rw [sanitizeBody_eq, hq, hX]
    by_cases hes : endsSemi (sanitizeBody raw) = true
    · rw [if_pos hes, hbody]
      refine ⟨p, X, rfl, hpmem.2, hpmem.1, ?_⟩
      rcases hXh with h0 | h1
      · left; rw [h0]; rfl
      · right; left; exact h1
    · rw [if_neg (by simpa using hes), hbody, List.append_assoc]
      refine ⟨p, X ++ [';'], rfl, hpmem.2, hpmem.1, ?_⟩
      rcases hXh with h0 | h1
      · right; right; rw [h0]; rfl
      · right; left; rw [List.head?_append_of_ne_nil _ (by
          intro hc; rw [hc] at h1; simp at h1)]
        exact h1

theorem cleanSql_trimmed (raw : List Char) : pyStrip (cleanSql raw) = cleanSql raw := by
  rcases cleanSql_decomp raw with h | ⟨p, X, hr, hkeep, ⟨x, hx⟩, hXh⟩
  · rw [h]
    decide
  · apply pyStrip_eq_self
    · intro c hc
      rw [hr, List.head?_append_of_ne_nil _ (keepLine_iff.mp hkeep).1] at hc
      rw [hx] at hc
      exact pyStrip_head_not_spc hc
    · intro c hc
      rw [cleanSql_getLast_semi raw] at hc
      simp at hc
      subst hc
      decide

theorem cleanSql_keep (raw : List Char) :
    cleanSql raw = [';'] ∨ keepLine (cleanSql raw) = true := by
  rcases cleanSql_decomp raw with h | ⟨p, X, hr, hkeep, ⟨x, hx⟩, hXh⟩
  · left; exact h
  · right
    obtain ⟨hpne, hhash, hdash⟩ := keepLine_iff.mp hkeep
    rw [keepLine_iff]
    refine ⟨by rw [hr]; simp [hpne], ?_, ?_⟩
    · intro hc
      rw [isPre_single] at hc
      rw [hr, List.head?_append_of_ne_nil _ hpne] at hc
      exact hhash (by rw [isPre_single]; exact hc)
    · intro hc
      obtain ⟨t, ht⟩ := isPre_pair hc
      rw [hr] at ht
      rcases p with _ | ⟨a, p2⟩
      · exact hpne rfl
      · rcases p2 with _ | ⟨b, p3⟩
        · simp at ht
          obtain ⟨ha, hX2⟩ := ht
          have hXd : X.head? = some '-' := by rw [hX2]; rfl
          rcases hXh with h0 | h1 | h1
          · exact absurd (h0.symm.trans hXd) (by decide)
          · exact absurd (h1.symm.trans hXd) (by decide)
          · exact absurd (h1.symm.trans hXd) (by decide)
        · simp at ht
          exact hdash (by simp [List.isPrefixOf, ht.1, ht.2.1])

/-! ### The surviving lines do not depend on the outer strip -/

theorem sqlLines_cons_nl (c : List Char) : sqlLines ('\n' :: c) = sqlLines c := by
  unfold sqlLines
  rw [pySplit_cons_nl]
  simp [pyStrip_nil, keepLine]

theorem sqlLines_cons_spc {w : Char} (hw : isSpc w = true) (c : List Char) :
    sqlLines (w :: c) = sqlLines c := by
  by_cases hn : w = '\n'
  · subst hn
    exact sqlLines_cons_nl c
  · obtain ⟨t, ts, h1, h2⟩ := pySplit_cons_head hn c
    unfold sqlLines
    rw [h2, h1]
    simp only [List.map_cons, List.filter_cons]
    rw [pyStrip_cons_spc hw]

theorem sqlLines_dropLead (c : List Char) :
    sqlLines (List.dropWhile isSpc c) = sqlLines c := by
  induction c with
  | nil => rfl
  | cons w c ih =>
    by_cases hw : isSpc w = true
    · rw [List.dropWhile_cons, if_pos hw, ih, sqlLines_cons_spc hw]
    · rw [List.dropWhile_cons, if_neg (by simp [hw])]

theorem sqlLines_append_nl (l : List Char) : sqlLines (l ++ ['\n']) = sqlLines l := by
  unfold sqlLines
  rw [pySplit_append_nl]
  simp [pyStrip_nil, keepLine]

theorem mapStrip_appendToLast {a : Char} (hs : isSpc a = true) :
    ∀ (L : List (List Char)), L ≠ [] →
      (appendToLast a L).map pyStrip = L.map pyStrip := by
  intro L
  induction L with
  | nil => intro h; exact absurd rfl h
  | cons m ms ih =>
    intro _
    rcases ms with _ | ⟨n, ns⟩
    · show (([m ++ [a]] : List (List Char))).map pyStrip = _
      simp only [List.map_cons, List.map_nil]
      rw [pyStrip_append_spc hs]
    · rw [appendToLast_cons_of_ne a m (by simp)]
      simp only [List.map_cons]
      rw [ih (by simp)]
      simp only [List.map_cons]

theorem sqlLines_append_spc {a : Char} (hs : isSpc a = true) (l : List Char) :
    sqlLines (l ++ [a]) = sqlLines l := by
  by_cases hn : a = '\n'
  · subst hn
    exact sqlLines_append_nl l
  · unfold sqlLines
    rw [pySplit_append_ch hn, mapStrip_appendToLast hs _ (pySplit_ne_nil l)]

theorem sqlLines_dropTrail (c : List Char) : sqlLines (dropTrail c) = sqlLines c := by
  induction c using List.reverseRecOn with
  | nil => rfl
  | append_singleton l a ih =>
    by_cases hs : isSpc a = true
    · rw [dropTrail_append_spc hs, ih, sqlLines_append_spc hs]
    · rw [dropTrail_eq_self]
      intro c hc
      rw [List.getLast?_concat] at hc
      simp at hc
      subst hc
      simpa using hs

theorem sqlLines_pyStrip (c : List Char) : sqlLines (pyStrip c) = sqlLines c := by
  unfold pyStrip
  rw [sqlLines_dropTrail, sqlLines_dropLead]

/-! ### Further helpers for the claim proofs -/

theorem pyStrip_cons_not_spc {a : Char} {l : List Char} (ha : isSpc a = false) :
    ∃ t, pyStrip (a :: l) = a :: t := by
  unfold pyStrip
  rw [List.dropWhile_cons, if_neg (by simp [ha])]
  by_cases hn : dropTrail l = []
  · rw [dropTrail_cons_of_nil a hn, if_neg (by simp [ha])]
    exact ⟨[], rfl⟩
  · rw [dropTrail_cons_of_ne a hn]
    exact ⟨dropTrail l, rfl⟩

theorem keepLine_bq_head (t : List Char) : keepLine (bq :: t) = true := by
  rw [keepLine_iff]
  refine ⟨by simp, ?_, ?_⟩
  · intro hc
    rw [isPre_single] at hc
    simp at hc
    exact absurd hc (by decide)
  · intro hc
    obtain ⟨r, hr⟩ := isPre_pair hc
    simp at hr
    exact absurd hr.1 (by decide)

theorem pyStrip_all_spc {l : List Char} (h : ∀ c ∈ l, isSpc c = true) : pyStrip l = [] := by
  unfold pyStrip
  rw [List.dropWhile_eq_nil_iff.mpr h]
  rfl

theorem executeQuery_db_none {V : Type} {db : List Char → Option (List (List Char) × List (List V))}
    {sql : List Char} (h : db sql = none) : executeQuery db sql = [] := by
  unfold executeQuery
  rw [h]

theorem executeQuery_db_some {V : Type} {db : List Char → Option (List (List Char) × List (List V))}
    {sql : List Char} {cols : List (List Char)} {rows : List (List V)}
    (h : db sql = some (cols, rows)) : executeQuery db sql = rows.map (rowToDict cols) := by
  unfold executeQuery
  rw [h]

theorem queryFromText_none {V : Type} (db : List Char → Option (List (List Char) × List (List V)))
    (q : List Char) : queryFromText db none q = ⟨q, none, [], none, some genFailureMsg⟩ := rfl

theorem queryFromText_some {V : Type} (db : List Char → Option (List (List Char) × List (List V)))
    (raw q : List Char) :
    queryFromText db (some raw) q =
      ⟨q, some (cleanSql raw), executeQuery db (cleanSql raw),
        some (executeQuery db (cleanSql raw)).length, none⟩ := by
  unfold queryFromText generateSqlQuery
  simp only []
  rw [if_neg (by simp [List.isEmpty_iff, cleanSql_ne_nil raw])]

/-! ### Claim C2 -/

/-- C2 counterexample: a raw completion consisting solely of comment lines is
    sanitized to the bare string ";" - no failure of any kind occurs, while the
    claim says a SanitizationError is raised rather than ";" being returned. -/
theorem cleanSql_comment_only_cex : cleanSql ("# note\n-- hidden".data) = [';'] := by decide

/-- C2 amended: for every raw completion whose lines, after trimming, are all
    empty or begin with a comment marker, sanitization returns exactly the bare
    string ";" (the code has no SanitizationError and never raises). -/
theorem cleanSql_comment_only {raw : List Char}
    (h : ∀ l ∈ pySplit raw, keepLine (pyStrip l) = false) : cleanSql raw = [';'] := by
  have hF : sqlLines raw = [] := by
    unfold sqlLines
    rw [List.filter_eq_nil_iff]
    intro p hp
    rw [List.mem_map] at hp
    obtain ⟨x, hx, hpx⟩ := hp
    rw [← hpx]
    simp [h x hx]
  have hFs : sqlLines (pyStrip raw) = [] := by rw [sqlLines_pyStrip]; exact hF
  have hnf : ¬ fenceMarker.isPrefixOf (pyStrip raw) = true := by
    intro hp
    obtain ⟨t, ht⟩ := List.isPrefixOf_iff_prefix.mp hp
    have hb : pyStrip raw = bq :: bq :: bq :: t := by rw [← ht]; rfl
    obtain ⟨u, us, h1, h2⟩ := pySplit_cons_head (show ¬ bq = '\n' by decide) (bq :: bq :: t)
    obtain ⟨t2, ht2⟩ := pyStrip_cons_not_spc (show isSpc bq = false by decide) (l := u)
    have hmem : pyStrip (bq :: u) ∈ sqlLines (pyStrip raw) := by
      unfold sqlLines
      rw [List.mem_filter]
      constructor
      · rw [List.mem_map]
        exact ⟨bq :: u, by rw [hb, h2]; simp, rfl⟩
      · rw [ht2]
        exact keepLine_bq_head t2
    rw [hFs] at hmem
    simp at hmem
  rw [cleanSql_eq, sanitizeBody_eq, if_neg hnf, hFs, joinSp_nil]
  rfl

/-- Witness for C2 at a concrete comment-only completion. -/
theorem cleanSql_comment_only_witness :
    (∀ l ∈ pySplit ("-- only a comment".data), keepLine (pyStrip l) = false) ∧
      cleanSql ("-- only a comment".data) = [';'] :=
  ⟨by decide, cleanSql_comment_only (by decide)⟩

/-! ### Claim C3 -/

/-- C3 counterexample: a whitespace-only completion does not make generation
    fail; the statement ";" is produced and passed to execution (the database
    stub is invoked and its rows are returned), while the claim says a
    GenerationError prevents any SQL from reaching execution. -/
theorem generate_empty_completion_cex :
    queryFromText (V := Nat) (fun _ => some ([("c".data)], [[0], [1]]))
        (some ("   ".data)) ("q".data) =
      ⟨"q".data, some [';'], [[(("c".data), 0)], [(("c".data), 1)]], some 2, none⟩ := by
  decide

/-- C3 amended: an empty or whitespace-only completion does not raise: the
    generator returns the statement ";" (which flows on to execution);
    generation yields None only when the model call itself raises. -/
theorem generate_empty_completion {raw : List Char} (h : ∀ c ∈ raw, isSpc c = true) :
    generateSqlQuery (some raw) = some [';'] ∧ generateSqlQuery none = none := by
  refine ⟨?_, rfl⟩
  show some (cleanSql raw) = some [';']
  congr 1
  rw [cleanSql_eq, sanitizeBody_eq, pyStrip_all_spc h]
  decide

/-- Witness for C3 at the empty completion. -/
theorem generate_empty_completion_witness :
    (∀ c ∈ ("  ".data), isSpc c = true) ∧
      generateSqlQuery (some ("  ".data)) = some [';'] ∧ generateSqlQuery none = none :=
  ⟨by decide, generate_empty_completion (by decide)⟩

/-! ### Claim C5 -/

/-- C5 counterexample: sanitizing "x``` ;;" returns it unchanged, so the
    output ends with two semicolons (not exactly one) and still contains a
    triple-backtick fence marker, contradicting the claimed invariant. -/
theorem cleanSql_invariants_cex :
    cleanSql ("x``` ;;".data) = "x``` ;;".data ∧
      hasTriple (cleanSql ("x``` ;;".data)) = true ∧
      [';', ';'] <:+ cleanSql ("x``` ;;".data) := by
  refine ⟨by decide, by decide, ?_⟩
  rw [show cleanSql ("x``` ;;".data) = "x``` ;;".data by decide]
  decide

/-- C5 amended: for every raw completion the sanitized string is non-empty,
    equal to its own trim, and ends with a semicolon (possibly more than one),
    and it is either the bare ";" or a line that is neither empty nor a
    comment; fence markers may survive when the completion does not begin with
    a fence, and the trailing semicolon need not be unique. -/
theorem cleanSql_invariants (raw : List Char) :
    cleanSql raw ≠ [] ∧ pyStrip (cleanSql raw) = cleanSql raw ∧
      endsSemi (cleanSql raw) = true ∧
      (cleanSql raw = [';'] ∨ keepLine (cleanSql raw) = true) :=
  ⟨cleanSql_ne_nil raw, cleanSql_trimmed raw, cleanSql_endsSemi raw, cleanSql_keep raw⟩

/-! ### Claim C8 -/

/-- C8: sanitization appends exactly one ";" to the joined statement when it
    does not already end with one, and appends nothing when it does. -/
theorem cleanSql_appends_one_semicolon (raw : List Char) :
    cleanSql raw =
      sanitizeBody raw ++ (if endsSemi (sanitizeBody raw) then [] else [';']) := by
  rw [cleanSql_eq]
  by_cases h : endsSemi (sanitizeBody raw) = true <;> simp [h]

/-! ### Claim C6 -/

theorem stripFences_append_of_noTriple {s : List Char} (hs : s.head? ≠ some bq) :
    ∀ {c : List Char}, hasTriple c = false → stripFences (c ++ s) = c ++ stripFences s := by
  intro c
  induction c with
  | nil => intro _; simp
  | cons a c2 ih =>
    intro h3
    have htail : hasTriple c2 = false := hasTriple_tail h3
    have hnc : ¬ (a = bq ∧ [bq, bq].isPrefixOf (c2 ++ s) = true) := by
      rintro ⟨ha, hp⟩
      obtain ⟨rest, hrest⟩ := isPre_pair hp
      rcases c2 with _ | ⟨b, c3⟩
      · simp at hrest
        exact hs (by rw [hrest]; rfl)
      · rcases c3 with _ | ⟨d, c4⟩
        · simp at hrest
          exact hs (by rw [hrest.2]; rfl)
        · simp at hrest
          subst ha
          rw [hasTriple_cons3] at h3
          simp [hrest.1, hrest.2.1] at h3
    rw [List.cons_append, stripFences_cons_nf hnc, ih htail]
    rfl

theorem cleanSql_fenced_core {c y : List Char}
    (hps : pyStrip y = y)
    (hfp : fenceMarker.isPrefixOf y = true)
    (hsf : stripFences y = c ++ ['\n'])
    (h3 : hasTriple c = false) (htr : pyStrip c = c) :
    cleanSql y = cleanSql c := by
  have hnf : ¬ fenceMarker.isPrefixOf c = true := by
    intro hc
    have := hasTriple_of_fencePre hc
    rw [this] at h3
    exact Bool.noConfusion h3
  rw [cleanSql_eq, sanitizeBody_eq, hps, if_pos hfp, hsf, sqlLines_append_nl]
  rw [cleanSql_eq c, sanitizeBody_eq c, htr, if_neg hnf]

/-- C6 counterexample: a fence opened with a language tag other than sql is
    not removed as a marker: its tag text survives into the statement, so the
    fenced completion does not sanitize to the same result as the unfenced
    content.  "with or without a language tag" fails for the tag python. -/
theorem cleanSql_fenced_tag_cex :
    cleanSql ("```python\nSELECT 1\n```".data) = "python SELECT 1;".data ∧
      cleanSql ("SELECT 1".data) = "SELECT 1;".data ∧
      cleanSql ("```python\nSELECT 1\n```".data) ≠ cleanSql ("SELECT 1".data) := by
  refine ⟨by decide, by decide, ?_⟩
  rw [show cleanSql ("```python\nSELECT 1\n```".data) = "python SELECT 1;".data by decide,
    show cleanSql ("SELECT 1".data) = "SELECT 1;".data by decide]
  decide

/-- C6 amended: for content with no triple-backtick inside and already
    trimmed, wrapping it in a fence without a language tag, or with the
    language tag sql, sanitizes to exactly the unfenced result; any other
    language tag leaves its text behind (see the counterexample). -/
theorem cleanSql_fenced_eq_unfenced {c : List Char}
    (h3 : hasTriple c = false) (htr : pyStrip c = c) :
    cleanSql (bq :: bq :: bq :: '\n' :: (c ++ ['\n', bq, bq, bq])) = cleanSql c ∧
      cleanSql (bq :: bq :: bq :: 's' :: 'q' :: 'l' :: '\n' :: (c ++ ['\n', bq, bq, bq])) =
        cleanSql c := by
  have hs_head : (['\n', bq, bq, bq] : List Char).head? ≠ some bq := by decide
  have hsf_tail : stripFences (c ++ ['\n', bq, bq, bq]) = c ++ ['\n'] := by
    rw [stripFences_append_of_noTriple hs_head h3]
    rfl
  constructor
  · refine cleanSql_fenced_core ?_ ?_ ?_ h3 htr
    · apply pyStrip_eq_self
      · intro c0 hc
        simp at hc
        subst hc
        decide
      · intro c0 hc
        rw [show (bq :: bq :: bq :: '\n' :: (c ++ ['\n', bq, bq, bq])) =
          ([bq, bq, bq, '\n'] ++ (c ++ ['\n', bq, bq, bq])) from rfl] at hc
        rw [List.getLast?_append_of_ne_nil _ (by simp),
          List.getLast?_append_of_ne_nil _ (by simp)] at hc
        simp at hc
        subst hc
        decide
    · simp [fenceMarker, List.isPrefixOf]
    · rw [stripFences_fence_nl]
      exact hsf_tail
  · refine cleanSql_fenced_core ?_ ?_ ?_ h3 htr
    · apply pyStrip_eq_self
      · intro c0 hc
        simp at hc
        subst hc
        decide
      · intro c0 hc
        rw [show (bq :: bq :: bq :: 's' :: 'q' :: 'l' :: '\n' :: (c ++ ['\n', bq, bq, bq])) =
          ([bq, bq, bq, 's', 'q', 'l', '\n'] ++ (c ++ ['\n', bq, bq, bq])) from rfl] at hc
        rw [List.getLast?_append_of_ne_nil _ (by simp),
          List.getLast?_append_of_ne_nil _ (by simp)] at hc
        simp at hc
        subst hc
        decide
    · simp [fenceMarker, List.isPrefixOf]
    · rw [stripFences_fence_sql]
      exact hsf_tail

/-- Witness for C6 at the content SELECT 1. -/
theorem cleanSql_fenced_eq_unfenced_witness :
    hasTriple ("SELECT 1".data) = false ∧ pyStrip ("SELECT 1".data) = "SELECT 1".data ∧
      cleanSql (bq :: bq :: bq :: '\n' :: ("SELECT 1".data ++ ['\n', bq, bq, bq])) =
        cleanSql ("SELECT 1".data) :=
  ⟨by decide, by decide, (cleanSql_fenced_eq_unfenced (by decide) (by decide)).1⟩

/-! ### Claim C7 -/

theorem cleanSql_single_line_eq {s : List Char}
    (hnl : '\n' ∉ s) (htr : pyStrip s = s) (hes : endsSemi s = true)
    (hkeep : keepLine s = true) (hnf : ¬ fenceMarker.isPrefixOf s = true) :
    cleanSql s = s := by
  rw [cleanSql_eq, sanitizeBody_eq, htr, if_neg hnf]
  have hlines : sqlLines s = [s] := by
    unfold sqlLines
    rw [pySplit_no_nl hnl]
    simp only [List.map_cons, List.map_nil, htr]
    simp [List.filter_cons, hkeep]
  rw [hlines, joinSp_single, if_pos hes]

/-- C7: sanitization is idempotent on inputs that are already a single
    trimmed semicolon-terminated line. -/
theorem cleanSql_idempotent {x : List Char}
    (hnl : '\n' ∉ x) (htr : pyStrip x = x) (hes : endsSemi x = true) :
    cleanSql (cleanSql x) = cleanSql x := by
  have hxl : x.getLast? = some ';' := by
    unfold endsSemi at hes
    simpa using hes
  by_cases hf : fenceMarker.isPrefixOf x = true
  · have hyl : (stripFences x).getLast? = some ';' := stripFences_getLast_semi hxl
    have hynl : '\n' ∉ stripFences x := fun hm => hnl (List.Sublist.mem hm (stripFences_sublist x))
    have hyT : hasTriple (stripFences x) = false := stripFences_noTriple x
    have hsb : sanitizeBody x = joinSp (sqlLines (stripFences x)) := by
      rw [sanitizeBody_eq, htr, if_pos hf]
    have hsl : (pyStrip (stripFences x)).getLast? = some ';' := pyStrip_getLast_semi hyl
    have hlines : sqlLines (stripFences x) =
        if keepLine (pyStrip (stripFences x)) then [pyStrip (stripFences x)] else [] := by
      unfold sqlLines
      rw [pySplit_no_nl hynl]
      simp [List.filter_cons]
    by_cases hk : keepLine (pyStrip (stripFences x)) = true
    · have hcx : cleanSql x = pyStrip (stripFences x) := by
        rw [cleanSql_eq, hsb, hlines, if_pos hk, joinSp_single,
          if_pos (by unfold endsSemi; simp [hsl])]
      rw [hcx]
      apply cleanSql_single_line_eq
      · intro hm
        exact hynl (List.Sublist.mem hm (pyStrip_sublist (stripFences x)))
      · exact pyStrip_idem (stripFences x)
      · unfold endsSemi
        simp [hsl]
      · exact hk
      · intro hfp
        have h1 := hasTriple_of_fencePre hfp
        have h2 := hasTriple_of_isInf (pyStrip_isInf (stripFences x)) h1
        rw [hyT] at h2
        exact Bool.noConfusion h2
    · have hcx : cleanSql x = [';'] := by
        rw [cleanSql_eq, hsb, hlines, if_neg hk, joinSp_nil]
        rfl
      rw [hcx]
      decide
  · by_cases hk : keepLine x = true
    · have hcx : cleanSql x = x := cleanSql_single_line_eq hnl htr hes hk hf
      rw [hcx]
      exact hcx
    · have hcx : cleanSql x = [';'] := by
        rw [cleanSql_eq, sanitizeBody_eq, htr, if_neg hf]
        have hlines : sqlLines x = [] := by
          unfold sqlLines
          rw [pySplit_no_nl hnl]
          simp [List.filter_cons, htr, hk]
        rw [hlines, joinSp_nil]
        rfl
      rw [hcx]
      decide

/-- Witness for C7 at the line SELECT 1;. -/
theorem cleanSql_idempotent_witness :
    '\n' ∉ ("SELECT 1;".data) ∧ pyStrip ("SELECT 1;".data) = "SELECT 1;".data ∧
      endsSemi ("SELECT 1;".data) = true ∧
      cleanSql (cleanSql ("SELECT 1;".data)) = cleanSql ("SELECT 1;".data) :=
  ⟨by decide, by decide, by decide, cleanSql_idempotent (by decide) (by decide) (by decide)⟩

/-! ### Claim C1 -/

/-- C1 counterexample: generation and sanitization succeed and the database
    raises during execution, yet the returned outcome has error = none (null),
    while the claim says the error field is non-null. -/
theorem queryFromText_execute_error_cex :
    queryFromText (V := Nat) (fun _ => none) (some ("SELECT 1".data)) ("q".data) =
      ⟨"q".data, some ("SELECT 1;".data), [], some 0, none⟩ := by decide

/-- C1 amended: when generation succeeds and the database raises during
    execution (connectivity failures included), the outcome carries the
    non-null sanitized SQL, an empty row list, a count of 0, and a NULL error
    field: execute_query swallows the exception into an empty list, so the
    coordinator reports success with no rows. -/
theorem queryFromText_execute_error {V : Type} (q raw : List Char)
    (db : List Char → Option (List (List Char) × List (List V)))
    (h : db (cleanSql raw) = none) :
    queryFromText db (some raw) q = ⟨q, some (cleanSql raw), [], some 0, none⟩ := by
  rw [queryFromText_some, executeQuery_db_none h]
  rfl

/-- Witness for C1 with a database that always raises. -/
theorem queryFromText_execute_error_witness :
    ((fun _ => none : List Char → Option (List (List Char) × List (List Nat)))
        (cleanSql ("SELECT a FROM t".data)) = none) ∧
      queryFromText (V := Nat) (fun _ => none) (some ("SELECT a FROM t".data)) ("q2".data) =
        ⟨"q2".data, some (cleanSql ("SELECT a FROM t".data)), [], some 0, none⟩ :=
  ⟨rfl, queryFromText_execute_error _ _ _ rfl⟩

/-! ### Claim C4 -/

/-- C4: when generation fails, the coordinator returns sql None, empty rows
    and a non-null error without consulting the database (the right side does
    not mention db); but the num_results key is absent from the failure
    dictionary (modelled as none), although the claim - and the repository's
    own demo, which reads result["num_results"] unconditionally - expects a
    count of 0 to be present in every outcome. -/
theorem queryFromText_generate_failure {V : Type}
    (db : List Char → Option (List (List Char) × List (List V))) (q : List Char) :
    queryFromText db none q = ⟨q, none, [], none, some genFailureMsg⟩ := rfl

/-! ### Claim C9 -/

/-- C9: when all three stages succeed the outcome carries the sanitized sql,
    exactly the executor's converted row sequence in order, a count equal to
    the length of that sequence (which is the number of database rows), and a
    null error. -/
theorem queryFromText_success {V : Type} (q raw : List Char)
    (db : List Char → Option (List (List Char) × List (List V)))
    (cols : List (List Char)) (rows : List (List V))
    (h : db (cleanSql raw) = some (cols, rows)) :
    queryFromText db (some raw) q =
      ⟨q, some (cleanSql raw), rows.map (rowToDict cols),
        some ((rows.map (rowToDict cols)).length), none⟩ ∧
      (rows.map (rowToDict cols)).length = rows.length := by
  constructor
  · rw [queryFromText_some, executeQuery_db_some h]
  · simp

/-- Witness for C9 with a two-row result set. -/
theorem queryFromText_success_witness :
    ((fun _ => some ([("n".data)], [[3], [4]]) :
        List Char → Option (List (List Char) × List (List Nat)))
      (cleanSql ("SELECT 1".data)) = some ([("n".data)], [[3], [4]])) ∧
    (queryFromText (V := Nat) (fun _ => some ([("n".data)], [[3], [4]]))
        (some ("SELECT 1".data)) ("q3".data) =
      ⟨"q3".data, some (cleanSql ("SELECT 1".data)),
        ([[3], [4]] : List (List Nat)).map (rowToDict [("n".data)]),
        some ((([[3], [4]] : List (List Nat)).map (rowToDict [("n".data)])).length), none⟩ ∧
      (([[3], [4]] : List (List Nat)).map (rowToDict [("n".data)])).length =
        ([[3], [4]] : List (List Nat)).length) :=
  ⟨rfl, queryFromText_success _ _ _ _ _ rfl⟩

/-! ### Claim C10 -/

/-- C10: close_db on the freshly constructed generator (conn and cursor both
    None, as set by the constructor) makes no close call and raises nothing,
    whatever the close operations of a live cursor or connection would do. -/
theorem closeDb_fresh_state_ok (C K : Type) (closeCursor : K → Except (List Char) Unit)
    (closeConn : C → Except (List Char) Unit) :
    closeDb (initGenState C K) closeCursor closeConn = Except.ok () := rfl

end TextToSQL
